import Mathlib

/-!
Verification of the heuristic police-report parsing pipeline (`app.py`).

The document text is modelled as `List Char`.  Python regular expressions
are embedded as executable character scanners whose semantics were derived
from the exact patterns in the source (greedy quantifier behaviour included:
for each pattern of the shape `\s*X` with `X` not matching a whitespace
character, backtracking through a shorter whitespace run can never succeed,
so the scanner may skip the maximal whitespace run).
-/

namespace EllisLaw

/-! ### Character classes (ASCII, matching Python `re` on ASCII text) -/

/-- Python whitespace `\s` restricted to ASCII: space, tab, newline,
carriage return, vertical tab, form feed. -/
def isWs (c : Char) : Bool :=
  c = ' ' || c = '\t' || c = '\n' || c = '\r' || c = Char.ofNat 11 || c = Char.ofNat 12

def isUpperAZ (c : Char) : Bool := 'A' ≤ c && c ≤ 'Z'

def isLowerAZ (c : Char) : Bool := 'a' ≤ c && c ≤ 'z'

/-- `[A-Za-z]`. -/
def isLetterAZ (c : Char) : Bool := isUpperAZ c || isLowerAZ c

/-- `\d` i.e. `[0-9]`. -/
def isDigit09 (c : Char) : Bool := '0' ≤ c && c ≤ '9'

/-- Python `\w` under ASCII: `[A-Za-z0-9_]`. -/
def isWordChar (c : Char) : Bool := isLetterAZ c || isDigit09 c || c = '_'

/-! ### Generic scanning utilities -/

/-- Length of the maximal run of characters satisfying `p` at the head of
the list (the text a greedy `[class]*` consumes). -/
def runLen (p : Char → Bool) : List Char → Nat
  | [] => 0
  | c :: rest => if p c then runLen p rest + 1 else 0

/-- Length of the maximal whitespace run at the head of the list. -/
def wsRun : List Char → Nat := runLen isWs

/-- Length of the maximal digit run at the head of the list. -/
def digRun : List Char → Nat := runLen isDigit09

/-- Does `p` match literally at the head of the text? -/
def prefMatch : List Char → List Char → Bool
  | [], _ => true
  | _ :: _, [] => false
  | p :: ps, c :: cs => p = c && prefMatch ps cs

/-- Case-insensitive literal match at the head of the text; the pattern is
given upper-cased, text characters are upper-cased before comparison. -/
def ciPrefMatch : List Char → List Char → Bool
  | [], _ => true
  | _ :: _, [] => false
  | p :: ps, c :: cs => p = c.toUpper && ciPrefMatch ps cs

/-- Python `text.find(pat)` (for nonempty `pat`): index of the first
occurrence, `none` when absent. -/
def firstOccur (pat : List Char) : List Char → Option Nat
  | [] => if prefMatch pat [] then some 0 else none
  | c :: rest =>
    if prefMatch pat (c :: rest) then some 0
    else (firstOccur pat rest).map (· + 1)

/-- Python `pat in text` (substring containment). -/
def containsSub (pat text : List Char) : Bool :=
  (firstOccur pat text).isSome

/-- Python `str.strip(chars)`: drop characters satisfying `p` from both ends. -/
def stripBy (p : Char → Bool) (s : List Char) : List Char :=
  ((s.dropWhile p).reverse.dropWhile p).reverse

/-- Python `str.split()` (split on whitespace runs, no empty words). -/
def wordsAux (acc : List Char) : List Char → List (List Char)
  | [] => if acc.isEmpty then [] else [acc.reverse]
  | c :: rest =>
    if isWs c then
      if acc.isEmpty then wordsAux [] rest else acc.reverse :: wordsAux [] rest
    else wordsAux (c :: acc) rest

def wordsWs (s : List Char) : List (List Char) := wordsAux [] s

/-- Python `" ".join ws`. -/
def joinSp : List (List Char) → List Char
  | [] => []
  | [w] => w
  | w :: ws => w ++ ' ' :: joinSp ws

/-- Is `c` one of the line-break characters recognised by Python
`str.splitlines` (ASCII part plus NEL / LS / PS)? -/
def isLineBreak (c : Char) : Bool :=
  c = '\n' || c = '\r' || c = Char.ofNat 11 || c = Char.ofNat 12 ||
  c = Char.ofNat 28 || c = Char.ofNat 29 || c = Char.ofNat 30 ||
  c = Char.ofNat 133 || c = Char.ofNat 8232 || c = Char.ofNat 8233

/-- Python `str.splitlines` (no trailing empty line; `"\r\n"` is one break). -/
def splitlinesAux (acc : List Char) : List Char → List (List Char)
  | [] => if acc.isEmpty then [] else [acc.reverse]
  | '\r' :: '\n' :: rest => acc.reverse :: splitlinesAux [] rest
  | c :: rest =>
    if isLineBreak c then acc.reverse :: splitlinesAux [] rest
    else splitlinesAux (c :: acc) rest

def splitlines (s : List Char) : List (List Char) := splitlinesAux [] s

/-! ### `re.sub` embeddings (fuel-based, fuel = input length suffices since
every step consumes at least one character) -/

/-- `re.sub(r"\s*-\s*", " ", s)`: a match at a position exists exactly when
the maximal whitespace run there is followed by `'-'`; the match then also
swallows the maximal whitespace run after the `'-'`. -/
def subDashF : Nat → List Char → List Char
  | 0, s => s
  | _ + 1, [] => []
  | fuel + 1, c :: rest =>
    match (c :: rest).drop (wsRun (c :: rest)) with
    | '-' :: tail => ' ' :: subDashF fuel (tail.drop (wsRun tail))
    | _ => c :: subDashF fuel rest

def subDash (s : List Char) : List Char := subDashF s.length s

/-- `re.sub(r"\s{2,}", " ", s)`: replace each maximal whitespace run of
length ≥ 2 by a single space. -/
def subSpacesF : Nat → List Char → List Char
  | 0, s => s
  | _ + 1, [] => []
  | fuel + 1, c :: rest =>
    if 2 ≤ wsRun (c :: rest) then
      ' ' :: subSpacesF fuel ((c :: rest).drop (wsRun (c :: rest)))
    else c :: subSpacesF fuel rest

def subSpaces (s : List Char) : List Char := subSpacesF s.length s

/-! ### `re.search(r"\b\d{2,}\b", ·)` -/

/-- Match of `\b\d{2,}\b` anchored at the head of `s`, where `prevW` records
whether the character preceding `s` is a word character (`false` at the
start of the string).  Greedy `\d{2,}` followed by `\b` succeeds exactly
when the maximal digit run has length ≥ 2 and is followed by a non-word
character or the end of the string. -/
def bdRunHere (prevW : Bool) (s : List Char) : Bool :=
  !prevW && decide (2 ≤ digRun s) &&
    (match s.drop (digRun s) with
     | [] => true
     | c :: _ => !isWordChar c)

/-- `m.start()` of the first `\b\d{2,}\b` match, `none` when there is none. -/
def bdRunIdx (prevW : Bool) : List Char → Option Nat
  | [] => none
  | c :: rest =>
    if bdRunHere prevW (c :: rest) then some 0
    else (bdRunIdx (isWordChar c) rest).map (· + 1)

/-! ### `re.search(r"[A-Za-z]{2,}\s+[A-Za-z]", ·)` -/

/-- After a whitespace character: accept more whitespace, then require a
letter (`\s+[A-Za-z]` continuation). -/
def wsThenLetter : List Char → Bool
  | [] => false
  | c :: rest =>
    if isLetterAZ c then true
    else if isWs c then wsThenLetter rest
    else false

/-- After two letters: skip further letters, then require `\s+[A-Za-z]`. -/
def afterTwoLetters : List Char → Bool
  | [] => false
  | c :: rest =>
    if isLetterAZ c then afterTwoLetters rest
    else if isWs c then wsThenLetter rest
    else false

/-- `re.search(r"[A-Za-z]{2,}\s+[A-Za-z]", s)` as an existence scan. -/
def hasNamePat : List Char → Bool
  | [] => false
  | c :: rest =>
    (match rest with
     | d :: tail => isLetterAZ c && isLetterAZ d && afterTwoLetters tail
     | [] => false) || hasNamePat rest

/-! ### `parse_occupants` -/

def occAnchor : List Char := "Names & Addresses of Occupants".data

/-- `re.match(r"^[0-9\- ]+$", l)` on a (stripped, nonempty) line. -/
def isNumLine (l : List Char) : Bool :=
  !l.isEmpty && l.all (fun c => isDigit09 c || c = '-' || c = ' ')

/-- The two `re.sub` cleaning steps followed by `.strip(" -")`. -/
def cleanOf (l : List Char) : List Char :=
  stripBy (fun c => c = ' ' || c = '-') (subSpaces (subDash l))

/-- `name_only` of the per-line loop: the cleaned line, truncated to the
text before the first `\b\d{2,}\b` match (and re-stripped) when one
exists. -/
def nameOnlyOf (clean : List Char) : List Char :=
  match bdRunIdx false clean with
  | none => clean
  | some i => stripBy isWs (clean.take i)

/-- The body of the per-line loop of `parse_occupants`: the accepted
candidate name for a line, when any. -/
def occLineName (l : List Char) : Option (List Char) :=
  if containsSub "Names & Addresses".data l || containsSub "If Deceased".data l then none
  else if isNumLine l then none
  else if hasNamePat l then
    if 2 ≤ (wordsWs (nameOnlyOf (cleanOf l))).length &&
        (wordsWs (nameOnlyOf (cleanOf l))).length ≤ 5 then
      some (nameOnlyOf (cleanOf l))
    else none
  else none

/-- The `results` list of `parse_occupants` before deduplication. -/
def rawOccNames (text : List Char) : List (List Char) :=
  match firstOccur occAnchor text with
  | none => []
  | some anchor =>
    let block := (text.drop anchor).take 8000
    let lines := ((splitlines block).map (stripBy isWs)).filter (fun l => !l.isEmpty)
    lines.filterMap occLineName

/-- The dedup loop of `parse_occupants` (`seen` accumulates names). -/
def dedupKeepFirst (seen : List (List Char)) : List (List Char) → List (List Char)
  | [] => []
  | n :: rest =>
    if n ∈ seen then dedupKeepFirst seen rest
    else n :: dedupKeepFirst (n :: seen) rest

def parse_occupants (text : List Char) : List (List Char) :=
  (dedupKeepFirst [] (rawOccNames text)).take 30

/-! ### `find_charged_driver_hint` -/

/-- The character class `[A-Z \-']` of the charged-driver line pattern. -/
def capsClass (c : Char) : Bool :=
  isUpperAZ c || c = ' ' || c = '-' || c = '\''

/-- Length of the maximal `capsClass` run at the head of the list. -/
def capsRun : List Char → Nat := runLen capsClass

/-- `re.findall(r"\n([A-Z][A-Z \-']{4,60})\n", s)`: scan left to right; a
match needs `'\n'`, an uppercase letter, then a maximal `capsClass` run of
length 4–60 immediately followed by `'\n'` (the class excludes `'\n'`, so
greedy backtracking cannot produce any other match).  The scan resumes
after the trailing `'\n'`, which is consumed by the match.  Fuel-based;
fuel = input length suffices. -/
def findallCapsF : Nat → List Char → List (List Char)
  | 0, _ => []
  | _ + 1, [] => []
  | fuel + 1, c :: rest =>
    if c = '\n' then
      match rest with
      | d :: tail =>
        if isUpperAZ d then
          if 4 ≤ capsRun tail && capsRun tail ≤ 60 then
            match tail.drop (capsRun tail) with
            | '\n' :: _ =>
              (d :: tail.take (capsRun tail)) :: findallCapsF fuel (tail.drop (capsRun tail + 1))
            | _ => findallCapsF fuel rest
          else findallCapsF fuel rest
        else findallCapsF fuel rest
      | [] => []
    else findallCapsF fuel rest

/-- The loop over `caps` in `find_charged_driver_hint`: whitespace-normalize
each candidate (`" ".join(cand.split())`) and return the first whose word
count is 2–5. -/
def firstGoodCand : List (List Char) → Option (List Char)
  | [] => none
  | cand :: rest =>
    if 2 ≤ (wordsWs (joinSp (wordsWs cand))).length &&
        (wordsWs (joinSp (wordsWs cand))).length ≤ 5 then
      some (joinSp (wordsWs cand))
    else firstGoodCand rest

/-- The window `text[max(0, idx-600) : idx+1500]` (natural subtraction
realizes the `max`). -/
def hintWindow (text : List Char) (idx : Nat) : List Char :=
  (text.drop (idx - 600)).take (idx + 1500 - (idx - 600))

def find_charged_driver_hint (text : List Char) : Option (List Char) :=
  match firstOccur "136 Charge".data text with
  | none => none
  | some idx =>
    let snippet := hintWindow text idx
    firstGoodCand (findallCapsF snippet.length snippet)

/-! ### `flag_commercial` -/

def COMMERCIAL_KEYS : List (List Char) :=
  ["USDOT".data, "TRUCK".data, "CARRIER".data, "GVWR".data, "PENSKE".data,
   "FREIGHT".data, "MC/MX".data, "WEIGHT >= 26,001".data]

def flag_commercial (text : List Char) : Bool :=
  COMMERCIAL_KEYS.any (fun k => containsSub k (text.map Char.toUpper))

/-! ### `flag_fatal` -/

/-- Continuation of `re.search(r"\b8\s*Total\s*Killed\s*\n?([1-9])", ·)`
after the `'8'`.  Each `\s*` may be taken as the maximal whitespace run
(the following literal is never a whitespace character), and `\s*\n?` is
equivalent to `\s*` since `'\n'` is itself whitespace and the digit that
follows is not. -/
def after8 (s : List Char) : Bool :=
  let s1 := s.drop (wsRun s)
  prefMatch "Total".data s1 &&
    (let s2 := s1.drop 5
     let s3 := s2.drop (wsRun s2)
     prefMatch "Killed".data s3 &&
       (let s4 := s3.drop 6
        match s4.drop (wsRun s4) with
        | c :: _ => decide ('1' ≤ c) && decide (c ≤ '9')
        | [] => false))

/-- The search scan for the fatal pattern; `prevW` records whether the
preceding character is a word character (for the `\b` before the `'8'`). -/
def fatalSearch (prevW : Bool) : List Char → Bool
  | [] => false
  | c :: rest =>
    (!prevW && c = '8' && after8 rest) || fatalSearch (isWordChar c) rest

def flag_fatal (text : List Char) : Bool :=
  containsSub "Total Killed".data text && fatalSearch false text

/-! ### Field matcher regexes (`CASE_RE`, `DEPT_RE`, `DATE_RE`) -/

/-- `[A-Z0-9\-]` under `IGNORECASE`. -/
def caseClass (c : Char) : Bool := isLetterAZ c || isDigit09 c || c = '-'

def caseRunLen : List Char → Nat := runLen caseClass

/-- Continuation of `CASE_RE` after the `'1'`: `\s*Case\s*Number\s*\n?`
then the capture `([A-Z0-9\-]+)` (greedy, hence the maximal run).
`\s*\n?` collapses to the maximal whitespace run as in `after8`. -/
def afterCase1 (s : List Char) : Option (List Char) :=
  let s1 := s.drop (wsRun s)
  if ciPrefMatch "CASE".data s1 then
    let s2 := s1.drop 4
    let s3 := s2.drop (wsRun s2)
    if ciPrefMatch "NUMBER".data s3 then
      let s4 := s3.drop 6
      let s5 := s4.drop (wsRun s4)
      if caseRunLen s5 = 0 then none else some (s5.take (caseRunLen s5))
    else none
  else none

/-- `CASE_RE.search(text)`, returning `group(1)` of the first match. -/
def caseSearch (prevW : Bool) : List Char → Option (List Char)
  | [] => none
  | c :: rest =>
    match (if !prevW && c = '1' then afterCase1 rest else none) with
    | some g => some g
    | none => caseSearch (isWordChar c) rest

/-- `[A-Z0-9 \-./&]` under `IGNORECASE`. -/
def deptClass (c : Char) : Bool :=
  isLetterAZ c || isDigit09 c || c = ' ' || c = '-' || c = '.' || c = '/' || c = '&'

def deptRunLen : List Char → Nat := runLen deptClass

/-- Continuation of `DEPT_RE` after the `'2'` (no word boundary in this
pattern): `\s*Police Dept of\s*\n?([A-Z0-9 \-./&]+)`.  The capture class
contains the space character, so when the character after the maximal
whitespace run cannot start the capture, backtracking retries shorter
`\s*` runs; the largest retry that can succeed starts the capture at
the last space of the run (no other whitespace character is in the
class, so that capture is the single space), and when the run holds no
space the position fails. -/
def afterDept2 (s : List Char) : Option (List Char) :=
  let s1 := s.drop (wsRun s)
  if ciPrefMatch "POLICE DEPT OF".data s1 then
    let s2 := s1.drop 14
    let s3 := s2.drop (wsRun s2)
    if deptRunLen s3 ≠ 0 then some (s3.take (deptRunLen s3))
    else if (s2.take (wsRun s2)).contains ' ' then some [' ']
    else none
  else none

/-- `DEPT_RE.search(text)`, returning `group(1)` of the first match. -/
def deptSearch : List Char → Option (List Char)
  | [] => none
  | c :: rest =>
    match (if c = '2' then afterDept2 rest else none) with
    | some g => some g
    | none => deptSearch rest

/-- Continuation of `DATE_RE` after the `'4'`:
`\s*Date of Crash\s*\n?(\d{2}/\d{2}/\d{2})`. -/
def afterDate4 (s : List Char) : Option (List Char) :=
  let s1 := s.drop (wsRun s)
  if ciPrefMatch "DATE OF CRASH".data s1 then
    let s2 := s1.drop 13
    let s3 := s2.drop (wsRun s2)
    match s3 with
    | a :: b :: c1 :: d :: e :: c2 :: f :: g :: _ =>
      if isDigit09 a && isDigit09 b && c1 = '/' && isDigit09 d && isDigit09 e &&
         c2 = '/' && isDigit09 f && isDigit09 g then
        some [a, b, c1, d, e, c2, f, g]
      else none
    | _ => none
  else none

/-- `DATE_RE.search(text)`, returning `group(1)` of the first match. -/
def dateSearch : List Char → Option (List Char)
  | [] => none
  | c :: rest =>
    match (if c = '4' then afterDate4 rest else none) with
    | some g => some g
    | none => dateSearch rest

/-! ### `parse_document` -/

structure Row where
  caseNumber : List Char
  policeDept : List Char
  dateOfCrash : List Char
  name : List Char
  notAtFault : List Char
  commercialFlag : List Char
  fatalFlag : List Char
deriving DecidableEq

/-- The per-occupant not-at-fault computation of `parse_document`, with
`chargedHint` the already upper-cased hint (empty when none was found):
`"No" if charged_hint and charged_hint in name.upper() else "Yes"`. -/
def nafLabel (chargedHint name : List Char) : List Char :=
  if !chargedHint.isEmpty && containsSub chargedHint (name.map Char.toUpper) then
    "No".data
  else "Yes".data

/-- `case_no.group(1) if case_no else ""`. -/
def caseField (text : List Char) : List Char :=
  match caseSearch false text with | none => [] | some g => g

/-- `dept.group(1).strip() if dept else ""`. -/
def deptField (text : List Char) : List Char :=
  match deptSearch text with | none => [] | some g => stripBy isWs g

/-- `date.group(1) if date else ""`. -/
def dateField (text : List Char) : List Char :=
  match dateSearch text with | none => [] | some g => g

/-- `(find_charged_driver_hint(text) or "").upper()`. -/
def chargedHintOf (text : List Char) : List Char :=
  (match find_charged_driver_hint text with
   | none => []
   | some h => h).map Char.toUpper

/-- The per-occupant row built by `parse_document`. -/
def mkOccRow (text name : List Char) : Row :=
  { caseNumber := caseField text
    policeDept := deptField text
    dateOfCrash := dateField text
    name := name
    notAtFault := nafLabel (chargedHintOf text) name
    commercialFlag := if flag_commercial text then "Yes".data else "No".data
    fatalFlag := if flag_fatal text then "Yes".data else "No".data }

def parse_document (text : List Char) : List Row :=
  let rows := (parse_occupants text).map (mkOccRow text)
  if rows.isEmpty then
    [{ caseNumber := caseField text
       policeDept := deptField text
       dateOfCrash := dateField text
       name := "(no occupants parsed)".data
       notAtFault := []
       commercialFlag := if flag_commercial text then "Yes".data else "No".data
       fatalFlag := if flag_fatal text then "Yes".data else "No".data : Row }]
  else rows

/-! ### Specification-side definitions

These definitions follow the wording of the specification (not the code);
the theorems below compare them with the embedded source functions. -/

/-- The candidate set exactly as the claim words it: "all substrings that
are a full line of 5–60 consecutive uppercase
letters/spaces/hyphens/apostrophes surrounded by newlines" — every such
line, with no non-overlap restriction and no constraint on the first
character beyond membership in the class. -/
def specFullLines : List Char → List (List Char)
  | [] => []
  | c :: rest =>
    (if c = '\n' then
       if 5 ≤ capsRun rest && capsRun rest ≤ 60 then
         match rest.drop (capsRun rest) with
         | '\n' :: _ => [rest.take (capsRun rest)]
         | _ => []
       else []
     else []) ++ specFullLines rest

/-- The charged-driver hint as the claim states it: the spec's candidate
lines, first whitespace-normalized one with word count 2–5. -/
def chargedHintSpecClaim (text : List Char) : Option (List Char) :=
  match firstOccur "136 Charge".data text with
  | none => none
  | some idx => firstGoodCand (specFullLines (hintWindow text idx))

/-- Does this newline-delimited segment qualify as a charged-driver hint
candidate: an uppercase letter followed by 4–60 characters from
`[A-Z \-']`? -/
def qualC1 (seg : List Char) : Bool :=
  match seg with
  | [] => false
  | c :: tail =>
    isUpperAZ c && tail.all capsClass &&
      decide (4 ≤ tail.length) && decide (tail.length ≤ 60)

/-- Split at `'\n'` characters, keeping empty segments and the final
segment (`"a\nb"` ↦ `["a", "b"]`, `""` ↦ `[""]`). -/
def splitNlAux (acc : List Char) : List Char → List (List Char)
  | [] => [acc.reverse]
  | c :: rest =>
    if c = '\n' then acc.reverse :: splitNlAux [] rest
    else splitNlAux (c :: acc) rest

def splitNl (s : List Char) : List (List Char) := splitNlAux [] s

/-- The amended candidate scan over newline-separated segments: walk the
segments left to right; a segment is selectable only when the newline
before it is still available (`canLead`), which fails for the first
segment and for the segment immediately after a selected one (its leading
newline was consumed by the match), and never for the last segment (no
trailing newline). -/
def amWalk : Bool → List (List Char) → List (List Char)
  | _, [] => []
  | _, [_] => []
  | canLead, seg :: rest =>
    if canLead && qualC1 seg then seg :: amWalk false rest
    else amWalk true rest

/-- The charged-driver hint as the amended claim states it. -/
def chargedHintSpecAmended (text : List Char) : Option (List Char) :=
  match firstOccur "136 Charge".data text with
  | none => none
  | some idx => firstGoodCand (amWalk false (splitNl (hintWindow text idx)))

/-- All characters whitespace. -/
def AllWsL (v : List Char) : Prop := ∀ c ∈ v, isWs c = true

/-- The character before the match position (the last of `u`) is not a
word character; vacuously true at the start of the string. -/
def NonWordBefore (u : List Char) : Prop :=
  ∀ c, u.getLast? = some c → isWordChar c = false

/-- The pattern `\b8\s*Total\s*Killed\s*\n?([1-9])` as a declarative
decomposition of the text (`\n?` is subsumed by `\s*` since `'\n'` is
whitespace and the digit is not). -/
def FatalPattern (text : List Char) : Prop :=
  ∃ u v w x d r,
    text = u ++ '8' :: (v ++ "Total".data ++ (w ++ "Killed".data ++ (x ++ d :: r))) ∧
    NonWordBefore u ∧ AllWsL v ∧ AllWsL w ∧ AllWsL x ∧ '1' ≤ d ∧ d ≤ '9'

/-- A word-bounded run of two or more consecutive digits occurs in `s`:
`s = u ++ d ++ r` where `d` is all digits of length ≥ 2, the character
before `d` (if any) is not a word character, and the character after `d`
(if any) is not a word character. -/
def HasBoundedDigitRun (s : List Char) : Prop :=
  ∃ u d r, s = u ++ d ++ r ∧ 2 ≤ d.length ∧ (∀ c ∈ d, isDigit09 c = true) ∧
    (∀ c, u.getLast? = some c → isWordChar c = false) ∧
    (∀ c, r.head? = some c → isWordChar c = false)

/-! ## Lemmas on the scanning utilities -/

theorem prefMatch_iff (p : List Char) : ∀ s, prefMatch p s = true ↔ p <+: s := by
  induction p with
  | nil =>
    intro s
    simp only [prefMatch, true_iff]
    exact ⟨s, rfl⟩
  | cons a ps ih =>
    intro s
    cases s with
    | nil =>
      simp only [prefMatch, Bool.false_eq_true, false_iff]
      rintro ⟨t, ht⟩
      exact List.cons_ne_nil _ _ ht
    | cons c cs =>
      simp only [prefMatch, Bool.and_eq_true, decide_eq_true_eq, ih]
      constructor
      · rintro ⟨rfl, t, rfl⟩
        exact ⟨t, rfl⟩
      · rintro ⟨t, ht⟩
        injection ht with h1 h2
        exact ⟨h1, t, h2⟩

theorem isInfix_cons_split {p : List Char} {c : Char} {cs : List Char} :
    p <:+: c :: cs ↔ p <+: c :: cs ∨ p <:+: cs := by
  constructor
  · rintro ⟨u, v, huv⟩
    cases u with
    | nil => exact Or.inl ⟨v, huv⟩
    | cons a u' =>
      injection huv with h1 h2
      exact Or.inr ⟨u', v, h2⟩
  · rintro (⟨v, hv⟩ | ⟨u, v, huv⟩)
    · exact ⟨[], v, hv⟩
    · exact ⟨c :: u, v, by simp only [List.cons_append]; rw [huv]⟩

theorem firstOccur_isSome_iff (p : List Char) :
    ∀ s, (firstOccur p s).isSome = true ↔ p <:+: s := by
  intro s
  induction s with
  | nil =>
    simp only [firstOccur]
    constructor
    · intro h
      have hp : prefMatch p [] = true := by
        by_contra hq
        simp only [Bool.not_eq_true] at hq
        rw [hq] at h
        simp at h
      have := (prefMatch_iff p []).mp hp
      obtain ⟨t, ht⟩ := this
      exact ⟨[], t, by simpa using ht⟩
    · rintro ⟨u, v, huv⟩
      have hp : p = [] :=
        (List.append_eq_nil.mp (List.append_eq_nil.mp huv).1).2
      subst hp
      simp [prefMatch]
  | cons c cs ih =>
    simp only [firstOccur]
    rw [isInfix_cons_split]
    by_cases hp : prefMatch p (c :: cs) = true
    · simp [hp, (prefMatch_iff p (c :: cs)).mp hp]
    · rw [if_neg hp]
      have hmap : (Option.map (fun x => x + 1) (firstOccur p cs)).isSome
          = (firstOccur p cs).isSome := by
        cases firstOccur p cs <;> rfl
      rw [hmap, ih]
      constructor
      · exact Or.inr
      · rintro (h | h)
        · exact absurd ((prefMatch_iff p (c :: cs)).mpr h) hp
        · exact h

theorem containsSub_iff (p s : List Char) : containsSub p s = true ↔ p <:+: s := by
  unfold containsSub
  exact firstOccur_isSome_iff p s

theorem firstOccur_eq_none_iff (p s : List Char) :
    firstOccur p s = none ↔ ¬ p <:+: s := by
  rw [← containsSub_iff]
  unfold containsSub
  cases firstOccur p s <;> simp

/-! Facts about `runLen`. -/

theorem runLen_le_length (p : Char → Bool) : ∀ s : List Char, runLen p s ≤ s.length := by
  intro s
  induction s with
  | nil => simp [runLen]
  | cons c rest ih =>
    simp only [runLen, List.length_cons]
    split
    · omega
    · omega

theorem runLen_take (p : Char → Bool) :
    ∀ s : List Char, ∀ c ∈ s.take (runLen p s), p c = true := by
  intro s
  induction s with
  | nil => simp [runLen]
  | cons a rest ih =>
    by_cases ha : p a = true
    · simp only [runLen, ha, if_true, List.take_succ_cons]
      intro c hc
      rcases List.mem_cons.mp hc with rfl | hc
      · exact ha
      · exact ih c hc
    · simp only [runLen, ha, if_false, List.take_zero]
      intro c hc
      simp at hc

theorem runLen_drop_head (p : Char → Bool) :
    ∀ s : List Char, ∀ c, (s.drop (runLen p s)).head? = some c → p c = false := by
  intro s
  induction s with
  | nil => simp
  | cons a rest ih =>
    by_cases ha : p a = true
    · simp only [runLen, ha, if_true, List.drop_succ_cons]
      exact ih
    · simp only [runLen, ha, if_false, List.drop_zero, List.head?_cons]
      intro c hc
      injection hc with hc
      subst hc
      simpa using ha

theorem runLen_append_all (p : Char → Bool) (v w : List Char)
    (hv : ∀ c ∈ v, p c = true) :
    runLen p (v ++ w) = v.length + runLen p w := by
  induction v with
  | nil => simp
  | cons a v' ih =>
    have ha : p a = true := hv a (List.mem_cons_self _ _)
    have hstep : runLen p ((a :: v') ++ w) = runLen p (v' ++ w) + 1 := by
      show runLen p (a :: (v' ++ w)) = _
      simp [runLen, ha]
    rw [hstep, ih (fun c hc => hv c (List.mem_cons_of_mem _ hc))]
    simp only [List.length_cons]
    omega

theorem runLen_append_stop (p : Char → Bool) (v : List Char) (c : Char) (w : List Char)
    (hv : ∀ x ∈ v, p x = true) (hc : p c = false) :
    runLen p (v ++ c :: w) = v.length := by
  rw [runLen_append_all p v (c :: w) hv]
  simp [runLen, hc]

/-! Facts about individual characters. -/

theorem ws_not_word {c : Char} (h : isWs c = true) : isWordChar c = false := by
  simp only [isWs, Bool.or_eq_true, decide_eq_true_eq] at h
  rcases h with ((((rfl | rfl) | rfl) | rfl) | rfl) | rfl <;> decide

theorem digit_is_word {c : Char} (h : isDigit09 c = true) : isWordChar c = true := by
  simp [isWordChar, h]

theorem digit19_not_ws {d : Char} (h1 : '1' ≤ d) (h9 : d ≤ '9') : isWs d = false := by
  by_contra hws
  simp only [Bool.not_eq_false] at hws
  simp only [isWs, Bool.or_eq_true, decide_eq_true_eq] at hws
  rcases hws with ((((rfl | rfl) | rfl) | rfl) | rfl) | rfl <;> revert h1 <;> decide

theorem digit19_not_word_false {d : Char} (h1 : '1' ≤ d) (h9 : d ≤ '9') :
    isDigit09 d = true := by
  simp only [isDigit09, Bool.and_eq_true, decide_eq_true_eq]
  constructor
  · exact le_trans (by decide) h1
  · exact le_trans h9 (by decide)

theorem capsClass_ne_nl {c : Char} (h : capsClass c = true) : c ≠ '\n' := by
  intro hc
  subst hc
  exact absurd h (by decide)

theorem upperAZ_ne_nl {c : Char} (h : isUpperAZ c = true) : c ≠ '\n' := by
  intro hc
  subst hc
  exact absurd h (by decide)

/-! ## Lemmas on `parse_occupants` -/

theorem dedupKeepFirst_sublist :
    ∀ (l seen : List (List Char)), (dedupKeepFirst seen l).Sublist l := by
  intro l
  induction l with
  | nil => intro seen; simp [dedupKeepFirst]
  | cons n rest ih =>
    intro seen
    unfold dedupKeepFirst
    split
    · exact (ih seen).cons n
    · exact (ih (n :: seen)).cons₂ n

theorem dedupKeepFirst_not_mem_seen :
    ∀ (l seen : List (List Char)) (x : List Char),
      x ∈ dedupKeepFirst seen l → x ∉ seen := by
  intro l
  induction l with
  | nil => intro seen x hx; simp [dedupKeepFirst] at hx
  | cons n rest ih =>
    intro seen x hx
    unfold dedupKeepFirst at hx
    split at hx
    · exact ih seen x hx
    · rcases List.mem_cons.mp hx with rfl | hx'
      · assumption
      · intro hmem
        exact ih (n :: seen) x hx' (List.mem_cons_of_mem _ hmem)

theorem dedupKeepFirst_nodup :
    ∀ (l seen : List (List Char)), (dedupKeepFirst seen l).Nodup := by
  intro l
  induction l with
  | nil => intro seen; simp [dedupKeepFirst]
  | cons n rest ih =>
    intro seen
    unfold dedupKeepFirst
    split
    · exact ih seen
    · refine List.nodup_cons.mpr ⟨?_, ih (n :: seen)⟩
      intro hmem
      exact dedupKeepFirst_not_mem_seen rest (n :: seen) n hmem (List.mem_cons_self _ _)

theorem mem_parse_occupants_raw {text name : List Char}
    (h : name ∈ parse_occupants text) : name ∈ rawOccNames text := by
  unfold parse_occupants at h
  have h1 : name ∈ dedupKeepFirst [] (rawOccNames text) :=
    (List.take_sublist _ _).subset h
  exact (dedupKeepFirst_sublist _ _).subset h1

theorem mem_raw_occLineName {text name : List Char}
    (h : name ∈ rawOccNames text) : ∃ l, occLineName l = some name := by
  unfold rawOccNames at h
  cases hfo : firstOccur occAnchor text with
  | none => rw [hfo] at h; simp at h
  | some anchor =>
    rw [hfo] at h
    simp only [List.mem_filterMap] at h
    obtain ⟨l, _, hl⟩ := h
    exact ⟨l, hl⟩

/-- Everything the guards of `occLineName` guarantee about an accepted
name: the token-count bounds, and the shape of the name in terms of the
cleaned line and the first `\b\d{2,}\b` match. -/
theorem occLineName_shape {l name : List Char} (h : occLineName l = some name) :
    (2 ≤ (wordsWs name).length ∧ (wordsWs name).length ≤ 5) ∧
      ((bdRunIdx false (cleanOf l) = none ∧ name = cleanOf l) ∨
        ∃ i, bdRunIdx false (cleanOf l) = some i ∧
          name = stripBy isWs ((cleanOf l).take i)) := by
  unfold occLineName at h
  split at h
  · exact absurd h (by simp)
  · split at h
    · exact absurd h (by simp)
    · split at h
      · split at h
        · rename_i hguard
          injection h with h
          subst h
          simp only [Bool.and_eq_true, decide_eq_true_eq] at hguard
          refine ⟨hguard, ?_⟩
          unfold nameOnlyOf
          cases hbd : bdRunIdx false (cleanOf l) with
          | none => exact Or.inl ⟨rfl, rfl⟩
          | some i => exact Or.inr ⟨i, rfl, rfl⟩
        · exact absurd h (by simp)
      · exact absurd h (by simp)

/-! ## C4, C5, C6, C9 -/

/-- The concrete scenario text of the spec (§8): all three field labels,
an occupants block with one candidate line, no "136 Charge" anchor. -/
def scenarioText : List Char :=
  ("1 Case Number\nABC123\n2 Police Dept of TEST CITY PD\n" ++
   "4 Date of Crash 01/02/23\nNames & Addresses of Occupants\n" ++
   "JOHN SMITH 123 MAIN ST").data

set_option maxRecDepth 100000 in
/-- C9: on the scenario text, `parse_document` produces exactly one row
with the expected seven field values. -/
theorem scenario_single_row :
    parse_document scenarioText =
      [{ caseNumber := "ABC123".data
         policeDept := "TEST CITY PD".data
         dateOfCrash := "01/02/23".data
         name := "JOHN SMITH".data
         notAtFault := "Yes".data
         commercialFlag := "No".data
         fatalFlag := "No".data }] := by
  decide

/-- C4: the commercial flag is true exactly when the upper-cased document
text contains at least one of the eight fixed keyword substrings. -/
theorem flag_commercial_iff_keyword (text : List Char) :
    flag_commercial text = true ↔
      ∃ k ∈ COMMERCIAL_KEYS, k <:+: text.map Char.toUpper := by
  unfold flag_commercial
  rw [List.any_eq_true]
  constructor
  · rintro ⟨k, hk, hc⟩
    exact ⟨k, hk, (containsSub_iff _ _).mp hc⟩
  · rintro ⟨k, hk, hc⟩
    exact ⟨k, hk, (containsSub_iff _ _).mpr hc⟩

theorem flag_commercial_iff_keyword_witness :
    ∃ k ∈ COMMERCIAL_KEYS, k <:+: ("a truck here".data.map Char.toUpper) :=
  (flag_commercial_iff_keyword "a truck here".data).mp (by decide)

/-- First-seen deduplication stated intrinsically: keep the head (the
first occurrence) and delete every later copy of it before recursing,
so the output lists each distinct element at its first occurrence, in
that order. -/
def firstSeen (l : List (List Char)) : List (List Char) :=
  match l with
  | [] => []
  | x :: rest => x :: firstSeen (rest.filter (fun y => !(y == x)))
termination_by l.length
decreasing_by
  simp only [List.length_cons]
  exact Nat.lt_succ_of_le (List.length_filter_le _ _)

theorem firstSeen_cons (x : List Char) (rest : List (List Char)) :
    firstSeen (x :: rest) = x :: firstSeen (rest.filter (fun y => !(y == x))) := by
  rw [firstSeen]

theorem filter_notMem_cons (rest : List (List Char)) (n : List Char)
    (seen : List (List Char)) :
    (rest.filter (fun y => !(decide (y ∈ seen)))).filter (fun y => !(y == n))
      = rest.filter (fun y => !(decide (y ∈ n :: seen))) := by
  rw [List.filter_filter]
  congr 1
  funext y
  by_cases h1 : y = n <;> by_cases h2 : y ∈ seen <;> simp [h1, h2]

theorem dedupKeepFirst_eq_firstSeen :
    ∀ (l seen : List (List Char)),
      dedupKeepFirst seen l = firstSeen (l.filter (fun y => !(decide (y ∈ seen)))) := by
  intro l
  induction l with
  | nil =>
    intro seen
    show dedupKeepFirst seen [] = firstSeen []
    rw [firstSeen]
    rfl
  | cons n rest ih =>
    intro seen
    unfold dedupKeepFirst
    by_cases hn : n ∈ seen
    · rw [if_pos hn, ih seen]
      congr 1
      rw [List.filter_cons]
      simp [hn]
    · rw [if_neg hn]
      have hfc : (n :: rest).filter (fun y => !(decide (y ∈ seen)))
          = n :: rest.filter (fun y => !(decide (y ∈ seen))) := by
        rw [List.filter_cons]
        simp [hn]
      rw [hfc, firstSeen_cons, filter_notMem_cons, ih (n :: seen)]

theorem dedupKeepFirst_nil_eq_firstSeen (l : List (List Char)) :
    dedupKeepFirst [] l = firstSeen l := by
  rw [dedupKeepFirst_eq_firstSeen]
  congr 1
  exact List.filter_eq_self.mpr (fun a _ => by simp)

/-- C5: the occupant list has length at most 30, contains no duplicate
names, is an order-preserving sublist of the raw pre-deduplication
candidate list, and equals the first 30 entries of its first-seen
deduplication (each distinct name kept at its first occurrence, in
first-occurrence order). -/
theorem parse_occupants_nodup_bounded (text : List Char) :
    (parse_occupants text).length ≤ 30 ∧ (parse_occupants text).Nodup ∧
      (parse_occupants text).Sublist (rawOccNames text) ∧
      parse_occupants text = (firstSeen (rawOccNames text)).take 30 := by
  refine ⟨?_, ?_, ?_, ?_⟩
  · unfold parse_occupants
    simp [List.length_take_le]
  · exact (dedupKeepFirst_nodup _ _).sublist (List.take_sublist _ _)
  · exact (List.take_sublist _ _).trans (dedupKeepFirst_sublist _ _)
  · unfold parse_occupants
    rw [dedupKeepFirst_nil_eq_firstSeen]

/-- C6: every accepted occupant name has a whitespace-split token count
between 2 and 5 inclusive. -/
theorem occupant_token_count_bounds (text name : List Char)
    (h : name ∈ parse_occupants text) :
    2 ≤ (wordsWs name).length ∧ (wordsWs name).length ≤ 5 := by
  obtain ⟨l, hl⟩ := mem_raw_occLineName (mem_parse_occupants_raw h)
  exact (occLineName_shape hl).1

theorem occupant_token_count_bounds_witness :
    2 ≤ (wordsWs "JOHN SMITH".data).length ∧
      (wordsWs "JOHN SMITH".data).length ≤ 5 :=
  occupant_token_count_bounds scenarioText "JOHN SMITH".data (by decide)

/-! ## C7, C8 -/

theorem parse_occupants_eq_nil_of_no_anchor {text : List Char}
    (h : ¬ occAnchor <:+: text) : parse_occupants text = [] := by
  have hnone : firstOccur occAnchor text = none :=
    (firstOccur_eq_none_iff _ _).mpr h
  unfold parse_occupants rawOccNames
  rw [hnone]
  rfl

/-- C7: when the occupants anchor phrase is absent, the occupant list is
empty and `parse_document` produces exactly one row, whose name is the
literal placeholder and whose not-at-fault field is the empty string,
distinct from both "Yes" and "No". -/
theorem no_anchor_placeholder_row (text : List Char)
    (h : ¬ occAnchor <:+: text) :
    parse_occupants text = [] ∧
      ∃ r, parse_document text = [r] ∧
        r.name = "(no occupants parsed)".data ∧
        r.notAtFault = [] ∧
        r.notAtFault ≠ "Yes".data ∧ r.notAtFault ≠ "No".data := by
  have hocc : parse_occupants text = [] := parse_occupants_eq_nil_of_no_anchor h
  refine ⟨hocc, ?_⟩
  unfold parse_document
  rw [hocc]
  exact ⟨_, rfl, rfl, rfl,
    (by decide : ([] : List Char) ≠ "Yes".data),
    (by decide : ([] : List Char) ≠ "No".data)⟩

theorem no_anchor_placeholder_row_witness :
    parse_occupants "hello world".data = [] ∧
      ∃ r, parse_document "hello world".data = [r] ∧
        r.name = "(no occupants parsed)".data ∧
        r.notAtFault = [] ∧
        r.notAtFault ≠ "Yes".data ∧ r.notAtFault ≠ "No".data :=
  no_anchor_placeholder_row "hello world".data (by decide)

/-- C8: when no field label matches, the occupants anchor is absent and
both flags are off, `parse_document` produces exactly the placeholder row
with all extracted fields empty and both flag columns "No". -/
theorem no_signals_all_empty_row (text : List Char)
    (hcase : caseSearch false text = none)
    (hdept : deptSearch text = none)
    (hdate : dateSearch text = none)
    (hanchor : ¬ occAnchor <:+: text)
    (hcomm : flag_commercial text = false)
    (hfatal : flag_fatal text = false) :
    parse_document text =
      [{ caseNumber := []
         policeDept := []
         dateOfCrash := []
         name := "(no occupants parsed)".data
         notAtFault := []
         commercialFlag := "No".data
         fatalFlag := "No".data }] := by
  have hocc : parse_occupants text = [] := parse_occupants_eq_nil_of_no_anchor hanchor
  unfold parse_document caseField deptField dateField
  rw [hocc, hcase, hdept, hdate, hcomm, hfatal]
  rfl

theorem no_signals_all_empty_row_witness :
    parse_document [] =
      [{ caseNumber := []
         policeDept := []
         dateOfCrash := []
         name := "(no occupants parsed)".data
         notAtFault := []
         commercialFlag := "No".data
         fatalFlag := "No".data }] :=
  no_signals_all_empty_row [] (by decide) (by decide) (by decide) (by decide)
    (by decide) (by decide)

/-! ## C2: the fatal flag -/

/-- Is the character preceding the current position a word character?
`b` is the answer for an empty prefix `u` (the context before `u`). -/
def lastWord (b : Bool) : List Char → Bool
  | [] => b
  | c :: u => lastWord (isWordChar c) u

theorem lastWord_cons (b : Bool) (c : Char) (u : List Char) :
    lastWord b (c :: u) = lastWord (isWordChar c) u := rfl

theorem lastWord_concat (c : Char) :
    ∀ (us : List Char) (b : Bool), lastWord b (us ++ [c]) = isWordChar c := by
  intro us
  induction us with
  | nil => intro b; rfl
  | cons d us' ih => intro b; rw [List.cons_append, lastWord_cons, ih]

theorem nonWordBefore_iff (u : List Char) :
    NonWordBefore u ↔ lastWord false u = false := by
  induction u using List.reverseRecOn with
  | nil =>
    simp only [NonWordBefore, lastWord, List.getLast?_nil]
    simp
  | append_singleton us c _ =>
    unfold NonWordBefore
    rw [lastWord_concat, List.getLast?_concat]
    simp

theorem allWs_take (s : List Char) : AllWsL (s.take (wsRun s)) :=
  fun c hc => runLen_take isWs s c hc

theorem after8_iff (s : List Char) :
    after8 s = true ↔
      ∃ v w x d r,
        s = v ++ "Total".data ++ (w ++ "Killed".data ++ (x ++ d :: r)) ∧
        AllWsL v ∧ AllWsL w ∧ AllWsL x ∧ '1' ≤ d ∧ d ≤ '9' := by
  constructor
  · intro h
    unfold after8 at h
    simp only [Bool.and_eq_true] at h
    obtain ⟨hT, hK, hfin⟩ := h
    obtain ⟨t1, ht1⟩ := (prefMatch_iff _ _).mp hT
    obtain ⟨V, hVws, hs⟩ : ∃ V, AllWsL V ∧ s = V ++ ("Total".data ++ t1) :=
      ⟨s.take (wsRun s), allWs_take s, by rw [ht1]; exact (List.take_append_drop _ _).symm⟩
    have ht1' : (s.drop (wsRun s)).drop 5 = t1 := by
      rw [← ht1]; exact List.drop_left "Total".data t1
    rw [ht1'] at hK hfin
    obtain ⟨t2, ht2⟩ := (prefMatch_iff _ _).mp hK
    obtain ⟨W, hWws, ht1''⟩ : ∃ W, AllWsL W ∧ t1 = W ++ ("Killed".data ++ t2) :=
      ⟨t1.take (wsRun t1), allWs_take t1, by rw [ht2]; exact (List.take_append_drop _ _).symm⟩
    have ht2' : (t1.drop (wsRun t1)).drop 6 = t2 := by
      rw [← ht2]; exact List.drop_left "Killed".data t2
    rw [ht2'] at hfin
    cases hdr : (t2.drop (wsRun t2)) with
    | nil => rw [hdr] at hfin; simp at hfin
    | cons d r =>
      rw [hdr] at hfin
      simp only [Bool.and_eq_true, decide_eq_true_eq] at hfin
      obtain ⟨X, hXws, ht2''⟩ : ∃ X, AllWsL X ∧ t2 = X ++ (d :: r) :=
        ⟨t2.take (wsRun t2), allWs_take t2, by rw [← hdr]; exact (List.take_append_drop _ _).symm⟩
      rw [ht2''] at ht1''
      rw [ht1''] at hs
      refine ⟨V, W, X, d, r, ?_, hVws, hWws, hXws, hfin.1, hfin.2⟩
      rw [hs]
      simp [List.append_assoc]
  · rintro ⟨v, w, x, d, r, heq, hv, hw, hx, h1, h9⟩
    have hTws : isWs 'T' = false := by decide
    have hKws : isWs 'K' = false := by decide
    have hdws : isWs d = false := digit19_not_ws h1 h9
    have hv' : ∀ c ∈ v, isWs c = true := hv
    have hw' : ∀ c ∈ w, isWs c = true := hw
    have hx' : ∀ c ∈ x, isWs c = true := hx
    have heq' : s = v ++ ('T' :: ("otal".data ++ (w ++ "Killed".data ++ (x ++ d :: r)))) := by
      rw [heq]; simp [List.append_assoc]
    have hws : wsRun s = v.length := by
      rw [heq']; exact runLen_append_stop isWs v 'T' _ hv' hTws
    have hdrop : s.drop (wsRun s) = "Total".data ++ (w ++ "Killed".data ++ (x ++ d :: r)) := by
      rw [hws, heq]
      have : v ++ "Total".data ++ (w ++ "Killed".data ++ (x ++ d :: r))
          = v ++ ("Total".data ++ (w ++ "Killed".data ++ (x ++ d :: r))) := by
        simp [List.append_assoc]
      rw [this]; exact List.drop_left _ _
    have hT : prefMatch "Total".data (s.drop (wsRun s)) = true := by
      rw [hdrop]; exact (prefMatch_iff _ _).mpr ⟨_, rfl⟩
    have hd5 : (s.drop (wsRun s)).drop 5 = w ++ "Killed".data ++ (x ++ d :: r) := by
      rw [hdrop]; exact List.drop_left "Total".data _
    have heq2 : w ++ "Killed".data ++ (x ++ d :: r)
        = w ++ ('K' :: ("illed".data ++ (x ++ d :: r))) := by
      simp [List.append_assoc]
    have hws2 : wsRun (w ++ "Killed".data ++ (x ++ d :: r)) = w.length := by
      rw [heq2]; exact runLen_append_stop isWs w 'K' _ hw' hKws
    have hdrop2 : (w ++ "Killed".data ++ (x ++ d :: r)).drop w.length
        = "Killed".data ++ (x ++ d :: r) := by
      have : w ++ "Killed".data ++ (x ++ d :: r)
          = w ++ ("Killed".data ++ (x ++ d :: r)) := by
        simp [List.append_assoc]
      rw [this]; exact List.drop_left _ _
    have hK : prefMatch "Killed".data
        (((s.drop (wsRun s)).drop 5).drop (wsRun ((s.drop (wsRun s)).drop 5))) = true := by
      rw [hd5, hws2, hdrop2]; exact (prefMatch_iff _ _).mpr ⟨_, rfl⟩
    have hd6 : (((s.drop (wsRun s)).drop 5).drop (wsRun ((s.drop (wsRun s)).drop 5))).drop 6
        = x ++ d :: r := by
      rw [hd5, hws2, hdrop2]; exact List.drop_left "Killed".data _
    have hws3 : wsRun (x ++ d :: r) = x.length := runLen_append_stop isWs x d r hx' hdws
    have hdrop3 : (x ++ d :: r).drop (wsRun (x ++ d :: r)) = d :: r := by
      rw [hws3]; exact List.drop_left _ _
    unfold after8
    simp only [Bool.and_eq_true]
    refine ⟨hT, hK, ?_⟩
    rw [hd6, hdrop3]
    simp [h1, h9]

theorem fatalSearch_iff (text : List Char) :
    ∀ b, fatalSearch b text = true ↔
      ∃ u r, text = u ++ '8' :: r ∧ lastWord b u = false ∧ after8 r = true := by
  induction text with
  | nil =>
    intro b
    simp only [fatalSearch, Bool.false_eq_true, false_iff]
    rintro ⟨u, r, hur, -, -⟩
    cases u <;> simp at hur
  | cons c rest ih =>
    intro b
    simp only [fatalSearch, Bool.or_eq_true, Bool.and_eq_true, Bool.not_eq_true',
      decide_eq_true_eq]
    constructor
    · rintro (⟨⟨hb, rfl⟩, h8⟩ | hrec)
      · exact ⟨[], rest, rfl, hb, h8⟩
      · obtain ⟨u, r, hur, hlast, h8⟩ := (ih _).mp hrec
        refine ⟨c :: u, r, by rw [List.cons_append, hur], ?_, h8⟩
        rw [lastWord_cons]; exact hlast
    · rintro ⟨u, r, hur, hlast, h8⟩
      cases u with
      | nil =>
        injection hur with h1 h2
        subst h1; subst h2
        exact Or.inl ⟨⟨hlast, rfl⟩, h8⟩
      | cons a u' =>
        injection hur with h1 h2
        subst h1
        refine Or.inr ((ih _).mpr ⟨u', r, h2, ?_, h8⟩)
        rw [lastWord_cons] at hlast; exact hlast

/-- C2: the fatal flag is true exactly when the text contains the literal
substring "Total Killed" and matches the pattern
`\b8\s*Total\s*Killed\s*\n?([1-9])`; in particular either condition alone,
without the other, leaves the flag false. -/
theorem flag_fatal_iff_conj (text : List Char) :
    flag_fatal text = true ↔
      ("Total Killed".data <:+: text ∧ FatalPattern text) := by
  unfold flag_fatal
  simp only [Bool.and_eq_true]
  constructor
  · rintro ⟨hc, hs⟩
    refine ⟨(containsSub_iff _ _).mp hc, ?_⟩
    obtain ⟨u, rr, hur, hlast, h8⟩ := (fatalSearch_iff text false).mp hs
    obtain ⟨v, w, x, d, r, hdec, hv, hw, hx, h1, h9⟩ := (after8_iff rr).mp h8
    exact ⟨u, v, w, x, d, r, by rw [hur, hdec],
      (nonWordBefore_iff u).mpr hlast, hv, hw, hx, h1, h9⟩
  · rintro ⟨hsub, u, v, w, x, d, r, heq, hnb, hv, hw, hx, h1, h9⟩
    refine ⟨(containsSub_iff _ _).mpr hsub, ?_⟩
    refine (fatalSearch_iff text false).mpr ⟨u, _, heq, (nonWordBefore_iff u).mp hnb, ?_⟩
    exact (after8_iff _).mpr ⟨v, w, x, d, r, rfl, hv, hw, hx, h1, h9⟩

theorem flag_fatal_iff_conj_witness :
    "Total Killed".data <:+: "w 8 Total Killed 3".data ∧
      FatalPattern "w 8 Total Killed 3".data :=
  (flag_fatal_iff_conj "w 8 Total Killed 3".data).mp (by decide)

/-! ## C3: the not-at-fault heuristic -/

theorem firstGoodCand_words :
    ∀ {l : List (List Char)} {h : List Char}, firstGoodCand l = some h →
      2 ≤ (wordsWs h).length ∧ (wordsWs h).length ≤ 5 := by
  intro l
  induction l with
  | nil => intro h hfg; simp [firstGoodCand] at hfg
  | cons cand rest ih =>
    intro h hfg
    unfold firstGoodCand at hfg
    split at hfg
    · rename_i hguard
      injection hfg with hfg
      subst hfg
      simpa using hguard
    · exact ih hfg

theorem hint_words {text h : List Char}
    (hf : find_charged_driver_hint text = some h) :
    2 ≤ (wordsWs h).length ∧ (wordsWs h).length ≤ 5 := by
  unfold find_charged_driver_hint at hf
  cases ho : firstOccur "136 Charge".data text with
  | none => rw [ho] at hf; exact absurd hf (by simp)
  | some idx => rw [ho] at hf; exact firstGoodCand_words hf

theorem hint_ne_nil {text h : List Char}
    (hf : find_charged_driver_hint text = some h) : h ≠ [] := by
  intro hnil
  subst hnil
  have := (hint_words hf).1
  simp [wordsWs, wordsAux] at this

/-- The not-at-fault label is exactly "No" in the found-and-substring
case, and exactly "Yes" in every other case (no third value). -/
theorem nafLabel_cases (text name : List Char) :
    (nafLabel (chargedHintOf text) name = "No".data ∧
      ∃ hint, find_charged_driver_hint text = some hint ∧
        (hint.map Char.toUpper) <:+: (name.map Char.toUpper))
    ∨ (nafLabel (chargedHintOf text) name = "Yes".data ∧
      ¬ ∃ hint, find_charged_driver_hint text = some hint ∧
        (hint.map Char.toUpper) <:+: (name.map Char.toUpper)) := by
  cases hf : find_charged_driver_hint text with
  | none =>
    have hch : chargedHintOf text = [] := by unfold chargedHintOf; rw [hf]; rfl
    refine Or.inr ⟨by rw [hch]; rfl, ?_⟩
    rintro ⟨hint, hsome, -⟩
    cases hsome
  | some hint =>
    have hch : chargedHintOf text = hint.map Char.toUpper := by
      unfold chargedHintOf; rw [hf]
    have hne : (hint.map Char.toUpper).isEmpty = false := by
      have := hint_ne_nil hf
      cases hint with
      | nil => exact absurd rfl this
      | cons a l => simp
    have hlab : nafLabel (chargedHintOf text) name =
        (if containsSub (hint.map Char.toUpper) (name.map Char.toUpper) = true
         then "No".data else "Yes".data) := by
      rw [hch]
      unfold nafLabel
      rw [hne]
      simp only [Bool.not_false, Bool.true_and]
    by_cases hc : containsSub (hint.map Char.toUpper) (name.map Char.toUpper) = true
    · refine Or.inl ⟨by rw [hlab, if_pos hc], hint, rfl, (containsSub_iff _ _).mp hc⟩
    · refine Or.inr ⟨by rw [hlab, if_neg hc], ?_⟩
      rintro ⟨hint', hsome, hinf⟩
      injection hsome with hsome
      subst hsome
      exact absurd ((containsSub_iff _ _).mpr hinf) hc

/-- C3: for each parsed occupant, the produced row carries the occupant's
name; its not-at-fault label is "No" exactly when a charged-driver hint
was found whose upper-casing is a substring of the upper-cased name
(case-insensitive containment), and "Yes" exactly otherwise; in
particular when no hint exists every occupant row is labeled "Yes". -/
theorem occupant_row_not_at_fault (text name : List Char)
    (h : name ∈ parse_occupants text) :
    ∃ r, r ∈ parse_document text ∧ r.name = name ∧
      (r.notAtFault = "No".data ↔
        ∃ hint, find_charged_driver_hint text = some hint ∧
          (hint.map Char.toUpper) <:+: (name.map Char.toUpper)) ∧
      (r.notAtFault = "Yes".data ↔
        ¬ ∃ hint, find_charged_driver_hint text = some hint ∧
          (hint.map Char.toUpper) <:+: (name.map Char.toUpper)) ∧
      (find_charged_driver_hint text = none → r.notAtFault = "Yes".data) := by
  refine ⟨mkOccRow text name, ?_, rfl, ?_, ?_, ?_⟩
  · unfold parse_document
    have hne : ((parse_occupants text).map (mkOccRow text)).isEmpty = false := by
      cases hocc : parse_occupants text with
      | nil => rw [hocc] at h; simp at h
      | cons a l => simp
    simp only [hne, Bool.false_eq_true, if_false]
    exact List.mem_map_of_mem _ h
  · show nafLabel (chargedHintOf text) name = "No".data ↔ _
    rcases nafLabel_cases text name with ⟨hNo, hP⟩ | ⟨hYes, hnP⟩
    · exact ⟨fun _ => hP, fun _ => hNo⟩
    · constructor
      · intro hh
        rw [hYes] at hh
        exact absurd hh (by decide)
      · intro hP
        exact absurd hP hnP
  · show nafLabel (chargedHintOf text) name = "Yes".data ↔ _
    rcases nafLabel_cases text name with ⟨hNo, hP⟩ | ⟨hYes, hnP⟩
    · constructor
      · intro hh
        rw [hNo] at hh
        exact absurd hh (by decide)
      · intro hn
        exact absurd hP hn
    · exact ⟨fun _ => hnP, fun _ => hYes⟩
  · intro hf
    show nafLabel (chargedHintOf text) name = "Yes".data
    rcases nafLabel_cases text name with ⟨-, hint, hsome, -⟩ | ⟨hYes, -⟩
    · rw [hf] at hsome
      cases hsome
    · exact hYes

theorem occupant_row_not_at_fault_witness :
    ∃ r, r ∈ parse_document scenarioText ∧ r.name = "JOHN SMITH".data ∧
      (r.notAtFault = "No".data ↔
        ∃ hint, find_charged_driver_hint scenarioText = some hint ∧
          (hint.map Char.toUpper) <:+: ("JOHN SMITH".data.map Char.toUpper)) ∧
      (r.notAtFault = "Yes".data ↔
        ¬ ∃ hint, find_charged_driver_hint scenarioText = some hint ∧
          (hint.map Char.toUpper) <:+: ("JOHN SMITH".data.map Char.toUpper)) ∧
      (find_charged_driver_hint scenarioText = none →
        r.notAtFault = "Yes".data) :=
  occupant_row_not_at_fault scenarioText "JOHN SMITH".data (by decide)

/-! ## C10: accepted names contain no word-bounded 2+-digit run -/

/-- A `\b\d{2,}\b` match anchored at the head of `q` (the left boundary is
accounted for separately). -/
def MatchHere (q : List Char) : Prop :=
  ∃ d r, q = d ++ r ∧ 2 ≤ d.length ∧ (∀ c ∈ d, isDigit09 c = true) ∧
    (∀ c, r.head? = some c → isWordChar c = false)

/-- A `\b\d{2,}\b` match of `s` starting at index `i`, where `b` tells
whether the character preceding `s` is a word character. -/
def MatchIdx (b : Bool) (s : List Char) (i : Nat) : Prop :=
  ∃ p q, s = p ++ q ∧ p.length = i ∧ lastWord b p = false ∧ MatchHere q

theorem bdRunHere_iff (b : Bool) (q : List Char) :
    bdRunHere b q = true ↔ (b = false ∧ MatchHere q) := by
  unfold bdRunHere
  simp only [Bool.and_eq_true, Bool.not_eq_true', decide_eq_true_eq]
  constructor
  · rintro ⟨⟨hb, hlen⟩, hmatch⟩
    refine ⟨hb, q.take (digRun q), q.drop (digRun q),
      (List.take_append_drop _ _).symm, ?_, runLen_take isDigit09 q, ?_⟩
    · rw [List.length_take]
      have hlelen : digRun q ≤ q.length := runLen_le_length isDigit09 q
      omega
    · intro c hc
      cases hdr : q.drop (digRun q) with
      | nil => rw [hdr] at hc; simp at hc
      | cons e rest =>
        rw [hdr] at hc hmatch
        injection hc with hc
        subst hc
        simpa using hmatch
  · rintro ⟨hb, d, r, hq, hlen, hdig, hr⟩
    have hrun : digRun q = d.length := by
      cases r with
      | nil =>
        rw [hq]
        show runLen isDigit09 (d ++ []) = d.length
        rw [runLen_append_all isDigit09 d [] hdig]
        rfl
      | cons c r' =>
        have hc : isDigit09 c = false := by
          have hw := hr c rfl
          by_contra hcd
          simp only [Bool.not_eq_false] at hcd
          rw [digit_is_word hcd] at hw
          exact absurd hw (by simp)
        rw [hq]
        exact runLen_append_stop isDigit09 d c r' hdig hc
    refine ⟨⟨hb, by omega⟩, ?_⟩
    have hdrop : q.drop (digRun q) = r := by
      rw [hrun, hq]; exact List.drop_left d r
    rw [hdrop]
    cases r with
    | nil => rfl
    | cons c r' =>
      have := hr c rfl
      simpa using this

theorem matchIdx_nil (b : Bool) (i : Nat) : ¬ MatchIdx b [] i := by
  rintro ⟨p, q, hpq, -, -, d, r, hq, hlen, -, -⟩
  have hp : p = [] ∧ q = [] := List.append_eq_nil.mp hpq.symm
  rw [hp.2] at hq
  have hd : d = [] := (List.append_eq_nil.mp hq.symm).1
  rw [hd] at hlen
  simp at hlen

theorem matchIdx_zero (b : Bool) (s : List Char) :
    MatchIdx b s 0 ↔ (b = false ∧ MatchHere s) := by
  constructor
  · rintro ⟨p, q, hpq, hlen, hlast, hmh⟩
    have hp : p = [] := List.length_eq_zero.mp hlen
    subst hp
    simp only [List.nil_append] at hpq
    subst hpq
    exact ⟨hlast, hmh⟩
  · rintro ⟨hb, hmh⟩
    exact ⟨[], s, rfl, rfl, hb, hmh⟩

theorem matchIdx_succ (b : Bool) (c : Char) (s : List Char) (i : Nat) :
    MatchIdx b (c :: s) (i + 1) ↔ MatchIdx (isWordChar c) s i := by
  constructor
  · rintro ⟨p, q, hpq, hlen, hlast, hmh⟩
    cases p with
    | nil => simp at hlen
    | cons a p' =>
      injection hpq with h1 h2
      subst h1
      refine ⟨p', q, h2, ?_, ?_, hmh⟩
      · simpa using hlen
      · rw [lastWord_cons] at hlast; exact hlast
  · rintro ⟨p, q, hpq, hlen, hlast, hmh⟩
    refine ⟨c :: p, q, by rw [List.cons_append, hpq], by simp [hlen], ?_, hmh⟩
    rw [lastWord_cons]; exact hlast

theorem bdRunIdx_none_iff (b : Bool) (s : List Char) :
    bdRunIdx b s = none ↔ ∀ i, ¬ MatchIdx b s i := by
  induction s generalizing b with
  | nil =>
    simp only [bdRunIdx, true_iff]
    exact matchIdx_nil b
  | cons c rest ih =>
    unfold bdRunIdx
    by_cases hbh : bdRunHere b (c :: rest) = true
    · rw [if_pos hbh]
      constructor
      · intro habs; cases habs
      · intro hall
        exact absurd ((matchIdx_zero b (c :: rest)).mpr ((bdRunHere_iff _ _).mp hbh))
          (hall 0)
    · rw [if_neg hbh]
      have hmap : (Option.map (fun x => x + 1) (bdRunIdx (isWordChar c) rest) = none)
          ↔ bdRunIdx (isWordChar c) rest = none := by
        cases bdRunIdx (isWordChar c) rest <;> simp
      rw [hmap, ih]
      constructor
      · intro hall i
        cases i with
        | zero =>
          intro h0
          exact hbh ((bdRunHere_iff _ _).mpr ((matchIdx_zero _ _).mp h0))
        | succ j =>
          intro hs
          exact hall j ((matchIdx_succ _ _ _ _).mp hs)
      · intro hall i hi
        exact hall (i + 1) ((matchIdx_succ _ _ _ _).mpr hi)

theorem bdRunIdx_some (b : Bool) (s : List Char) (i : Nat)
    (h : bdRunIdx b s = some i) :
    MatchIdx b s i ∧ ∀ j, j < i → ¬ MatchIdx b s j := by
  induction s generalizing b i with
  | nil => simp [bdRunIdx] at h
  | cons c rest ih =>
    unfold bdRunIdx at h
    by_cases hbh : bdRunHere b (c :: rest) = true
    · rw [if_pos hbh] at h
      injection h with h
      subst h
      exact ⟨(matchIdx_zero _ _).mpr ((bdRunHere_iff _ _).mp hbh),
        fun j hj => absurd hj (by omega)⟩
    · rw [if_neg hbh] at h
      obtain ⟨i', hi', rfl⟩ : ∃ i', bdRunIdx (isWordChar c) rest = some i' ∧ i = i' + 1 := by
        cases hb2 : bdRunIdx (isWordChar c) rest with
        | none => rw [hb2] at h; simp at h
        | some k =>
          rw [hb2] at h
          injection h with h
          exact ⟨k, rfl, h.symm⟩
      obtain ⟨hM, hmin⟩ := ih _ _ hi'
      refine ⟨(matchIdx_succ _ _ _ _).mpr hM, ?_⟩
      intro j hj
      cases j with
      | zero =>
        intro h0
        exact hbh ((bdRunHere_iff _ _).mpr ((matchIdx_zero _ _).mp h0))
      | succ j' =>
        intro hs
        exact hmin j' (by omega) ((matchIdx_succ _ _ _ _).mp hs)

theorem hasBoundedDigitRun_iff (s : List Char) :
    HasBoundedDigitRun s ↔ ∃ i, MatchIdx false s i := by
  constructor
  · rintro ⟨u, d, r, heq, hlen, hdig, hu, hr⟩
    refine ⟨u.length, u, d ++ r, ?_, rfl, (nonWordBefore_iff u).mp hu, d, r, rfl, hlen, hdig, hr⟩
    rw [heq]; simp [List.append_assoc]
  · rintro ⟨i, p, q, hpq, -, hlast, d, r, hq, hlen, hdig, hr⟩
    refine ⟨p, d, r, ?_, hlen, hdig, (nonWordBefore_iff p).mpr hlast, hr⟩
    rw [hpq, hq]; simp [List.append_assoc]

theorem take_no_match {s : List Char} {i : Nat}
    (hsome : bdRunIdx false s = some i) :
    ∀ j, ¬ MatchIdx false (s.take i) j := by
  obtain ⟨Mi, hmin⟩ := bdRunIdx_some false s i hsome
  obtain ⟨p', q', hs, hlen', hlast', d', r', hq', hd'len, hd'dig, hr'⟩ := Mi
  have hile : i ≤ s.length := by
    rw [hs, List.length_append]; omega
  have htakelen : (s.take i).length = i := by
    rw [List.length_take]; omega
  have htake : s.take i = p' := by
    rw [hs, ← hlen']; exact List.take_left p' q'
  intro j Mj
  obtain ⟨p, q, hpq, hlenp, hlastp, d, r, hq, hdlen, hddig, hr⟩ := Mj
  cases r with
  | cons c r₂ =>
    -- the inner match ends strictly before the cut: it is also a match of `s`
    have hjlt : j < i := by
      have : (s.take i).length = p.length + (d.length + (c :: r₂).length) := by
        rw [hpq, hq]; simp [List.length_append]
      rw [htakelen] at this
      simp only [List.length_cons] at this
      omega
    refine hmin j hjlt ⟨p, d ++ (c :: (r₂ ++ s.drop i)), ?_, hlenp, hlastp,
      d, c :: (r₂ ++ s.drop i), rfl, hdlen, hddig, ?_⟩
    · have h0 : s = s.take i ++ s.drop i := (List.take_append_drop _ _).symm
      rw [hpq, hq] at h0
      calc s = (p ++ (d ++ c :: r₂)) ++ s.drop i := h0
        _ = p ++ (d ++ c :: (r₂ ++ s.drop i)) := by simp [List.append_assoc]
    · intro e he
      injection he with he
      subst he
      exact hr c rfl
  | nil =>
    -- the inner match ends exactly at the cut: in `s` the digit run continues
    -- with the run of the first match, giving an earlier match of `s`
    rw [List.append_nil] at hq
    subst hq
    have hpd : p ++ q = p' := by rw [← htake, hpq]
    have hjlt : j < i := by
      have : p'.length = p.length + q.length := by rw [← hpd]; simp
      omega
    refine hmin j hjlt ⟨p, (q ++ d') ++ r', ?_, hlenp, hlastp,
      q ++ d', r', rfl, ?_, ?_, hr'⟩
    · rw [hs, hq', ← hpd]
      simp [List.append_assoc]
    · rw [List.length_append]; omega
    · intro e he
      rcases List.mem_append.mp he with he | he
      · exact hddig e he
      · exact hd'dig e he

theorem stripBy_decomp (p : Char → Bool) (s : List Char) :
    ∃ a b, s = a ++ stripBy p s ++ b ∧
      (∀ c ∈ a, p c = true) ∧ (∀ c ∈ b, p c = true) := by
  refine ⟨s.takeWhile p, ((s.dropWhile p).reverse.takeWhile p).reverse, ?_, ?_, ?_⟩
  · have h1 : s = s.takeWhile p ++ s.dropWhile p :=
      (List.takeWhile_append_dropWhile _ _).symm
    have h2 : s.dropWhile p =
        stripBy p s ++ ((s.dropWhile p).reverse.takeWhile p).reverse := by
      unfold stripBy
      have h3 : (s.dropWhile p).reverse =
          (s.dropWhile p).reverse.takeWhile p ++ (s.dropWhile p).reverse.dropWhile p :=
        (List.takeWhile_append_dropWhile _ _).symm
      calc s.dropWhile p = (s.dropWhile p).reverse.reverse := by rw [List.reverse_reverse]
        _ = ((s.dropWhile p).reverse.takeWhile p ++
              (s.dropWhile p).reverse.dropWhile p).reverse := by rw [← h3]
        _ = ((s.dropWhile p).reverse.dropWhile p).reverse ++
              ((s.dropWhile p).reverse.takeWhile p).reverse := by
              rw [List.reverse_append]
    rw [List.append_assoc, ← h2]
    exact h1
  · intro c hc
    exact List.mem_takeWhile_imp hc
  · intro c hc
    rw [List.mem_reverse] at hc
    exact List.mem_takeWhile_imp hc

theorem getLast?_append_right {a u : List Char} (h : u ≠ []) :
    (a ++ u).getLast? = u.getLast? := by
  induction u using List.reverseRecOn with
  | nil => exact absurd rfl h
  | append_singleton us x _ =>
    rw [← List.append_assoc, List.getLast?_concat, List.getLast?_concat]

theorem getLast_all_ws {a : List Char} (ha : ∀ c ∈ a, isWs c = true) :
    ∀ c, a.getLast? = some c → isWordChar c = false := by
  induction a using List.reverseRecOn with
  | nil => intro c hc; simp at hc
  | append_singleton as x _ =>
    intro c hc
    rw [List.getLast?_concat] at hc
    injection hc with hc
    subst hc
    exact ws_not_word (ha _ (by simp))

theorem hasBoundedDigitRun_strip {t : List Char}
    (H : HasBoundedDigitRun (stripBy isWs t)) : HasBoundedDigitRun t := by
  obtain ⟨a, b, hteq, ha, hb⟩ := stripBy_decomp isWs t
  obtain ⟨u, d, r, hseq, hdlen, hdd, hu, hr⟩ := H
  refine ⟨a ++ u, d, r ++ b, ?_, hdlen, hdd, ?_, ?_⟩
  · rw [hteq, hseq]
    simp [List.append_assoc]
  · intro c hc
    cases hue : u with
    | nil =>
      rw [hue, List.append_nil] at hc
      exact getLast_all_ws ha c hc
    | cons e u' =>
      rw [hue, getLast?_append_right (List.cons_ne_nil e u')] at hc
      rw [← hue] at hc
      exact hu c hc
  · intro c hc
    cases r with
    | cons e r' =>
      simp only [List.cons_append, List.head?_cons] at hc
      injection hc with hc
      subst hc
      exact hr _ rfl
    | nil =>
      simp only [List.nil_append] at hc
      cases b with
      | nil => simp at hc
      | cons f b' =>
        simp only [List.head?_cons] at hc
        injection hc with hc
        subst hc
        exact ws_not_word (hb _ (by simp))

/-- C10: every accepted occupant name is free of word-bounded runs of two
or more consecutive digits (the truncation before the first such run,
followed by stripping, cannot create a new one). -/
theorem occupant_names_digit_free (text name : List Char)
    (h : name ∈ parse_occupants text) : ¬ HasBoundedDigitRun name := by
  obtain ⟨l, hl⟩ := mem_raw_occLineName (mem_parse_occupants_raw h)
  obtain ⟨-, hshape⟩ := occLineName_shape hl
  rcases hshape with ⟨hnone, rfl⟩ | ⟨i, hsome, rfl⟩
  · intro H
    obtain ⟨j, Mj⟩ := (hasBoundedDigitRun_iff _).mp H
    exact (bdRunIdx_none_iff _ _).mp hnone j Mj
  · intro H
    obtain ⟨j, Mj⟩ := (hasBoundedDigitRun_iff _).mp (hasBoundedDigitRun_strip H)
    exact take_no_match hsome j Mj

theorem occupant_names_digit_free_witness :
    ¬ HasBoundedDigitRun "JOHN SMITH".data :=
  occupant_names_digit_free scenarioText "JOHN SMITH".data (by decide)

/-! ## C1: the charged-driver hint -/

/-- A text whose window contains a 61-character line (uppercase letter
followed by 60 class characters): the regex accepts it, the spec's
"5–60 characters" rule does not. -/
def c1Text : List Char :=
  "136 Charge\nJOHN ".data ++ List.replicate 56 'S' ++ ['\n']

set_option maxRecDepth 100000 in
/-- C1 counterexample: on `c1Text` the code returns the 61-character line
as the hint, while the claim's candidate rule ("full lines of 5–60
class characters") yields no candidate at all, hence "not found". -/
theorem charged_hint_claim_counterexample :
    chargedHintSpecClaim c1Text = none ∧
      find_charged_driver_hint c1Text =
        some ("JOHN ".data ++ List.replicate 56 'S') := by
  constructor
  · decide
  · decide

/-! Equivalence of the character-level `findall` scan with the
segment-walk formulation of the amended claim. -/

theorem splitNlAux_acc (s : List Char) :
    ∀ acc, ∃ h t, splitNlAux [] s = h :: t ∧
      splitNlAux acc s = (acc.reverse ++ h) :: t := by
  induction s with
  | nil =>
    intro acc
    exact ⟨[], [], rfl, by simp [splitNlAux]⟩
  | cons c rest ih =>
    intro acc
    by_cases hc : c = '\n'
    · subst hc
      refine ⟨[], splitNlAux [] rest, ?_, ?_⟩
      · simp [splitNlAux]
      · simp [splitNlAux]
    · obtain ⟨h1, t1, hb1, hc1⟩ := ih [c]
      obtain ⟨h2, t2, hb2, hc2⟩ := ih (c :: acc)
      rw [hb1] at hb2
      injection hb2 with hbh hbt
      refine ⟨c :: h1, t1, ?_, ?_⟩
      · show splitNlAux [] (c :: rest) = _
        unfold splitNlAux
        rw [if_neg hc, hc1]
        simp
      · show splitNlAux acc (c :: rest) = _
        unfold splitNlAux
        rw [if_neg hc, hc2, hbh, hbt]
        simp

theorem splitNl_shape (s : List Char) : ∃ h t, splitNl s = h :: t := by
  obtain ⟨h, t, hb, -⟩ := splitNlAux_acc s []
  exact ⟨h, t, hb⟩

theorem splitNl_cons_ne {c : Char} (rest : List Char) (hc : c ≠ '\n') :
    ∃ h t, splitNl rest = h :: t ∧ splitNl (c :: rest) = (c :: h) :: t := by
  obtain ⟨h, t, hb, hacc⟩ := splitNlAux_acc rest [c]
  refine ⟨h, t, hb, ?_⟩
  show splitNlAux [] (c :: rest) = _
  unfold splitNlAux
  rw [if_neg hc, hacc]
  simp

theorem splitNl_nl (rest : List Char) :
    splitNl ('\n' :: rest) = [] :: splitNl rest := by
  show splitNlAux [] ('\n' :: rest) = _
  unfold splitNlAux
  rw [if_pos rfl]
  rfl

theorem splitNl_append_nl {v : List Char} (w : List Char)
    (hv : ∀ c ∈ v, c ≠ '\n') :
    splitNl (v ++ '\n' :: w) = v :: splitNl w := by
  induction v with
  | nil => simpa using splitNl_nl w
  | cons c v' ih =>
    have hc : c ≠ '\n' := hv c (List.mem_cons_self _ _)
    have ih' := ih (fun e he => hv e (List.mem_cons_of_mem _ he))
    obtain ⟨h, t, hb, hcons⟩ := splitNl_cons_ne (v' ++ '\n' :: w) hc
    rw [ih'] at hb
    injection hb with hbh hbt
    rw [List.cons_append, hcons, hbh, hbt]

theorem splitNl_decomp {s h : List Char} {t : List (List Char)}
    (hst : splitNl s = h :: t) :
    (t = [] ∧ s = h) ∨ ∃ w, s = h ++ '\n' :: w ∧ splitNl w = t := by
  induction s generalizing h t with
  | nil =>
    have : splitNl ([] : List Char) = [[]] := rfl
    rw [this] at hst
    injection hst with h1 h2
    exact Or.inl ⟨h2.symm, h1⟩
  | cons c rest ih =>
    by_cases hc : c = '\n'
    · subst hc
      rw [splitNl_nl] at hst
      injection hst with h1 h2
      exact Or.inr ⟨rest, by rw [← h1]; rfl, h2⟩
    · obtain ⟨h', t', hb', hcons⟩ := splitNl_cons_ne rest hc
      rw [hcons] at hst
      injection hst with h1 h2
      rcases ih hb' with ⟨rfl, rfl⟩ | ⟨w, hw, hwt⟩
      · exact Or.inl ⟨h2.symm, by rw [← h1]⟩
      · refine Or.inr ⟨w, ?_, by rw [← h2]; exact hwt⟩
        rw [← h1, hw]
        rfl

theorem amWalk_false_cons (h : List Char) (t : List (List Char)) :
    amWalk false (h :: t) = (match t with | [] => [] | _ :: _ => amWalk true t) := by
  cases t with
  | nil => rfl
  | cons x ts => simp [amWalk]

theorem amWalk_not_qual {h : List Char} (hq : qualC1 h = false)
    (b : Bool) (t : List (List Char)) :
    amWalk b (h :: t) = (match t with | [] => [] | _ :: _ => amWalk true t) := by
  cases t with
  | nil => cases b <;> rfl
  | cons x ts => simp [amWalk, hq]

/-- `qualC1` of the first segment plus an available following newline is
exactly the regex match condition at a `'\n'`. -/
theorem qual_of_match {d : Char} {tail w : List Char}
    (hd : isUpperAZ d = true)
    (hr4 : 4 ≤ capsRun tail) (hr60 : capsRun tail ≤ 60)
    (hdrop : tail.drop (capsRun tail) = '\n' :: w) :
    qualC1 (d :: tail.take (capsRun tail)) = true := by
  have hlt : capsRun tail < tail.length := by
    have : tail.drop (capsRun tail) ≠ [] := by rw [hdrop]; simp
    have hlen := List.length_drop (capsRun tail) tail
    by_contra hge
    push_neg at hge
    rw [List.drop_of_length_le hge] at this
    exact this rfl
  have hlen : (tail.take (capsRun tail)).length = capsRun tail := by
    rw [List.length_take]; omega
  unfold qualC1
  simp only [hd, Bool.true_and, Bool.and_eq_true, decide_eq_true_eq, hlen,
    List.all_eq_true]
  exact ⟨⟨fun c hc => runLen_take capsClass tail c hc, hr4⟩, hr60⟩

/-- Conversely, a qualifying interior segment forces the regex match
condition. -/
theorem match_of_qual {e : Char} {H' tail w : List Char}
    (hq : qualC1 (e :: H') = true)
    (htail : tail = H' ++ '\n' :: w) :
    isUpperAZ e = true ∧ capsRun tail = H'.length ∧
      4 ≤ capsRun tail ∧ capsRun tail ≤ 60 ∧
      tail.drop (capsRun tail) = '\n' :: w := by
  unfold qualC1 at hq
  simp only [Bool.and_eq_true, decide_eq_true_eq, List.all_eq_true] at hq
  obtain ⟨⟨⟨he, hall⟩, h4⟩, h60⟩ := hq
  have hrun : capsRun tail = H'.length := by
    rw [htail]
    exact runLen_append_stop capsClass H' '\n' w hall (by decide)
  refine ⟨he, hrun, by omega, by omega, ?_⟩
  rw [hrun, htail]
  exact List.drop_left H' ('\n' :: w)

theorem findallCapsF_not_nl {c : Char} (hc : c ≠ '\n') (fuel : Nat) (rest : List Char) :
    findallCapsF (fuel + 1) (c :: rest) = findallCapsF fuel rest := by
  conv_lhs => unfold findallCapsF
  rw [if_neg hc]

theorem findallCapsF_nl_match {d : Char} {tail w : List Char} (fuel : Nat)
    (hd : isUpperAZ d = true)
    (h4 : 4 ≤ capsRun tail) (h60 : capsRun tail ≤ 60)
    (hdrop : tail.drop (capsRun tail) = '\n' :: w) :
    findallCapsF (fuel + 1) ('\n' :: d :: tail) =
      (d :: tail.take (capsRun tail)) ::
        findallCapsF fuel (tail.drop (capsRun tail + 1)) := by
  conv_lhs => unfold findallCapsF
  rw [if_pos rfl]
  simp only []
  rw [if_pos hd, if_pos (by simp [h4, h60]), hdrop]
  rfl

theorem findallCapsF_nl_nomatch {d : Char} {tail : List Char} (fuel : Nat)
    (h : ¬ (isUpperAZ d = true ∧ (4 ≤ capsRun tail ∧ capsRun tail ≤ 60) ∧
      ∃ w, tail.drop (capsRun tail) = '\n' :: w)) :
    findallCapsF (fuel + 1) ('\n' :: d :: tail) = findallCapsF fuel (d :: tail) := by
  conv_lhs => unfold findallCapsF
  rw [if_pos rfl]
  simp only []
  by_cases hd : isUpperAZ d = true
  · rw [if_pos hd]
    by_cases hb : (4 ≤ capsRun tail && capsRun tail ≤ 60) = true
    · rw [if_pos hb]
      cases hdr : tail.drop (capsRun tail) with
      | nil => rfl
      | cons e etail =>
        by_cases he : e = '\n'
        · subst he
          exact absurd ⟨hd, by simpa using hb, etail, hdr⟩ h
        · split
          · rename_i heq
            injection heq with he2
            exact absurd he2 he
          · rfl
    · rw [if_neg hb]
  · rw [if_neg hd]

theorem findall_eq_amWalk :
    ∀ fuel s, s.length ≤ fuel → findallCapsF fuel s = amWalk false (splitNl s) := by
  intro fuel
  induction fuel with
  | zero =>
    intro s hs
    have : s = [] := List.length_eq_zero.mp (Nat.le_zero.mp hs)
    subst this
    rfl
  | succ fuel ih =>
    intro s hs
    cases s with
    | nil => rfl
    | cons c rest =>
      by_cases hc : c = '\n'
      · subst hc
        cases rest with
        | nil => rfl
        | cons d tail =>
          obtain ⟨H, T, hbase⟩ := splitNl_shape (d :: tail)
          have hsplit : splitNl ('\n' :: d :: tail) = [] :: H :: T := by
            rw [splitNl_nl, hbase]
          have hrestlen : (d :: tail).length ≤ fuel := by
            simp only [List.length_cons] at hs ⊢
            omega
          by_cases hmatch : isUpperAZ d = true ∧ (4 ≤ capsRun tail ∧ capsRun tail ≤ 60) ∧
              ∃ w, tail.drop (capsRun tail) = '\n' :: w
          · obtain ⟨hd, ⟨hr4, hr60⟩, w, hdrop⟩ := hmatch
            have htail : tail = tail.take (capsRun tail) ++ '\n' :: w := by
              have h0 := (List.take_append_drop (capsRun tail) tail).symm
              rw [hdrop] at h0
              exact h0
            have htaked : ∀ e ∈ tail.take (capsRun tail), e ≠ '\n' :=
              fun e he => capsClass_ne_nl (runLen_take capsClass tail e he)
            have hsegtail : splitNl tail = tail.take (capsRun tail) :: splitNl w := by
              conv_lhs => rw [htail]
              exact splitNl_append_nl w htaked
            obtain ⟨H0, T0, hb0, hcons0⟩ :=
              splitNl_cons_ne tail (upperAZ_ne_nl hd)
            rw [hsegtail] at hb0
            injection hb0 with hb0h hb0t
            subst hb0h
            subst hb0t
            rw [hcons0] at hbase
            have hwdrop : tail.drop (capsRun tail + 1) = w := by
              have h2 := congrArg (List.drop 1) hdrop
              rw [List.drop_drop] at h2
              simpa [Nat.add_comm] using h2
            have hwlen : w.length ≤ fuel := by
              have := congrArg List.length htail
              simp only [List.length_append, List.length_cons] at this
              simp only [List.length_cons] at hs
              omega
            obtain ⟨hw0, tw0, hbw⟩ := splitNl_shape w
            have hqual : qualC1 (d :: tail.take (capsRun tail)) = true :=
              qual_of_match hd hr4 hr60 hdrop
            rw [findallCapsF_nl_match fuel hd hr4 hr60 hdrop, hwdrop, ih w hwlen]
            rw [hsplit, ← hbase]
            have h3 : amWalk false ([] :: (d :: tail.take (capsRun tail)) :: splitNl w)
                = amWalk true ((d :: tail.take (capsRun tail)) :: splitNl w) := by
              rw [hbw]
              rfl
            rw [h3]
            have hstep2 : amWalk true ((d :: tail.take (capsRun tail)) :: splitNl w)
                = (d :: tail.take (capsRun tail)) :: amWalk false (splitNl w) := by
              rw [hbw]
              show (if (true && qualC1 (d :: tail.take (capsRun tail))) = true then
                  (d :: tail.take (capsRun tail)) :: amWalk false (hw0 :: tw0)
                else amWalk true (hw0 :: tw0)) = _
              rw [if_pos (by simp [hqual])]
            rw [hstep2]
          · have hskip : amWalk true (H :: T) = amWalk false (H :: T) := by
              cases hT : T with
              | nil => rfl
              | cons x ts =>
                have hqual : qualC1 H = false := by
                  by_contra hq
                  simp only [Bool.not_eq_false] at hq
                  have hne : H ≠ [] := by
                    intro hH
                    rw [hH] at hq
                    exact absurd hq (by decide)
                  obtain ⟨e, H2, rfl⟩ : ∃ e H2, H = e :: H2 := by
                    cases H with
                    | nil => exact absurd rfl hne
                    | cons e H2 => exact ⟨e, H2, rfl⟩
                  rw [hT] at hbase
                  rcases splitNl_decomp hbase with ⟨hT0, -⟩ | ⟨w, hw, -⟩
                  · cases hT0
                  · injection hw with hw1 hw2
                    obtain ⟨he, hrun, h4, h60, hdrop⟩ := match_of_qual hq hw2
                    rw [← hw1] at he
                    exact hmatch ⟨he, ⟨h4, h60⟩, w, hdrop⟩
                rw [amWalk_not_qual hqual, amWalk_not_qual hqual]
            rw [findallCapsF_nl_nomatch fuel hmatch, ih (d :: tail) hrestlen,
              hsplit, hbase]
            cases T with
            | nil => rfl
            | cons x ts =>
              show amWalk false (H :: x :: ts) = amWalk true (H :: x :: ts)
              exact hskip.symm
      · obtain ⟨h, t, hb, hcons⟩ := splitNl_cons_ne rest hc
        have hrestlen : rest.length ≤ fuel := by
          simp only [List.length_cons] at hs
          omega
        rw [findallCapsF_not_nl hc fuel rest, ih rest hrestlen, hcons, hb,
          amWalk_false_cons, amWalk_false_cons]


/-- C1 amended: the charged-driver hint equals the amended specification:
candidates are the interior newline-delimited segments consisting of an
uppercase letter followed by 4–60 characters from `[A-Z \-']`, scanned
left to right with the segment immediately after a selected candidate
skipped (its leading newline was consumed); the hint is the first
candidate, whitespace-normalized, with word count 2–5, else "not found". -/
theorem charged_hint_amended_eq (text : List Char) :
    find_charged_driver_hint text = chargedHintSpecAmended text := by
  unfold find_charged_driver_hint chargedHintSpecAmended
  cases ho : firstOccur "136 Charge".data text with
  | none => rfl
  | some idx =>
    exact congrArg firstGoodCand
      (findall_eq_amWalk (hintWindow text idx).length (hintWindow text idx) le_rfl)

end EllisLaw
